import Mathlib

set_option linter.unusedSectionVars false

/-!
Shallow embedding of `src/had.h` (HAD: single-header reverse-mode automatic
differentiation with second-order support, edge_pushing algorithm of
Gower & Mello 2010).

Modelling conventions:
* `Real` (a C++ `double`) is embedded as an arbitrary `Field α` with decidable
  equality; concrete theorems instantiate `α := ℚ` or `α := ℝ`.
* `VertexId` (`unsigned int`) is embedded as `Nat`; the one place where
  unsigned wraparound matters (`vertices.size() - 1` in `PropagateAdjoint`)
  is modelled explicitly with arithmetic modulo `2^32`.
* `std::vector<ADVertex>` is a `List`; an out-of-bounds *read or write that
  the control flow actually performs* is modelled by returning `none`
  (C++ undefined behaviour has no defined result state).
* `Eigen::SparseMatrix<Real> soEdges` (column-major) is an association list
  from `(row, col)` to coefficient.  `coeffRef(i,j) += w` updates the entry
  in place when the key is stored and otherwise inserts a fresh explicit
  entry (Eigen inserts even when the added value is zero).
  `Eigen::SparseMatrix::resize(n,n)` unconditionally discards every stored
  entry, and `InnerIterator(m, vid)` walks the stored entries of *column*
  `vid` (for a column-major matrix the outer index is the column), yielding
  `(row, value)` pairs.  During the inner loop of `PropagateAdjoint` every
  write targets a canonical position whose column differs from `vid`
  (both written indices differ from `vid` there), so iterating over a
  snapshot of column `vid` taken at the start of the loop is equivalent to
  Eigen's live iteration.
-/

namespace had

/-- One outgoing first-order edge: target vertex id and weight
(`struct ADEdge`). -/
structure ADEdge (α : Type) where
  toV : Nat
  w : α
deriving DecidableEq

/-- A vertex record (`struct ADVertex`): up to two outgoing first-order
edges (`ei.toV =` own id means "edge absent"), first-order adjoint `w`,
local second-order weight `soW`. -/
structure ADVertex (α : Type) where
  e1 : ADEdge α
  e2 : ADEdge α
  w : α
  soW : α
deriving DecidableEq

/-- An active scalar (`struct AReal`): primal value and tape vertex id. -/
structure AReal (α : Type) where
  val : α
  varId : Nat
deriving DecidableEq

/-- The second-order accumulator: stored entries of the sparse matrix, as an
association list from `(row, col)` to coefficient.  Explicit zeros are
stored entries, as in Eigen. -/
abbrev SoMat (α : Type) := List ((Nat × Nat) × α)

/-- The tape (`struct ADGraph`): vertex sequence plus second-order
accumulator. -/
structure ADGraph (α : Type) where
  vertices : List (ADVertex α)
  soEdges : SoMat α
deriving DecidableEq

/-- `l[i]`, as `std::vector::operator[]` reads: `none` when out of bounds. -/
def nth {β : Type} : List β → Nat → Option β
  | [], _ => none
  | x :: _, 0 => some x
  | _ :: xs, n + 1 => nth xs n

/-- Write `l[i] := b`; no-op out of bounds (callers check the bound). -/
def setNth {β : Type} : List β → Nat → β → List β
  | [], _, _ => []
  | _ :: xs, 0, b => b :: xs
  | x :: xs, n + 1, b => x :: setNth xs n b

variable {α : Type} [Field α] [DecidableEq α]

/-- Coefficient of a stored entry; `0` when the key is not stored. -/
def soCoeff (m : SoMat α) (p : Nat × Nat) : α :=
  match m with
  | [] => 0
  | e :: rest => if e.1 = p then e.2 else soCoeff rest p

/-- Is the key a stored entry of the accumulator? -/
def hasKey (m : SoMat α) (p : Nat × Nat) : Bool :=
  match m with
  | [] => false
  | e :: rest => if e.1 = p then true else hasKey rest p

/-- `coeffRef(p) += w`: update in place when stored, else insert a fresh
explicit entry (also when `w = 0`). -/
def coeffAdd (m : SoMat α) (p : Nat × Nat) (w : α) : SoMat α :=
  match m with
  | [] => [(p, w)]
  | e :: rest => if e.1 = p then (p, e.2 + w) :: rest else e :: coeffAdd rest p w

/-- Reading `coeffRef(p)`: returns the stored value, inserting an explicit
zero entry when the key is absent (`GetAdjoint(i, j)` does this read). -/
def coeffRefRead (m : SoMat α) (p : Nat × Nat) : α × SoMat α :=
  match m with
  | [] => (0, [(p, 0)])
  | e :: rest =>
    if e.1 = p then (e.2, e :: rest)
    else
      let r := coeffRefRead rest p
      (r.1, e :: r.2)

/-- The canonical (upper-triangular) position used for every second-order
write and read: `(min i j, max i j)`. -/
def canon (i j : Nat) : Nat × Nat := (min i j, max i j)

/-- `AddSoEdge` on the accumulator:
`soEdges.coeffRef(min(i,j), max(i,j)) += w`. -/
def soAdd (i j : Nat) (w : α) (m : SoMat α) : SoMat α :=
  coeffAdd m (canon i j) w

/-- `AddSoEdge(i, j, w)` on the graph. -/
def AddSoEdge (i j : Nat) (w : α) (g : ADGraph α) : ADGraph α :=
  { g with soEdges := soAdd i j w g.soEdges }

/-- `NewAReal(val)`: append a fresh vertex with self-referring edges and
zeroed weights; return the active scalar `(val, newId)`. -/
def NewAReal (val : α) (g : ADGraph α) : AReal α × ADGraph α :=
  let newId := g.vertices.length
  (⟨val, newId⟩,
   ⟨g.vertices ++ [⟨⟨newId, 0⟩, ⟨newId, 0⟩, 0, 0⟩], g.soEdges⟩)

/-- Unary `AddEdge(c, p, w, soW)`: set `c`'s `e1` and `soW`. -/
def AddEdge1 (c p : AReal α) (w soW : α) (g : ADGraph α) : ADGraph α :=
  match nth g.vertices c.varId with
  | none => g
  | some v =>
    ⟨setNth g.vertices c.varId { v with e1 := ⟨p.varId, w⟩, soW := soW },
     g.soEdges⟩

/-- Binary `AddEdge(c, p1, p2, w1, w2, soW)`: set `c`'s `e1`, `e2`, `soW`. -/
def AddEdge2 (c p1 p2 : AReal α) (w1 w2 soW : α) (g : ADGraph α) : ADGraph α :=
  match nth g.vertices c.varId with
  | none => g
  | some v =>
    ⟨setNth g.vertices c.varId
       { v with e1 := ⟨p1.varId, w1⟩, e2 := ⟨p2.varId, w2⟩, soW := soW },
     g.soEdges⟩

/-- The shape shared by every unary recording operator:
`ret = NewAReal(val); AddEdge(ret, x, w, soW); return ret`. -/
def unaryShape (val : α) (x : AReal α) (w soW : α) (g : ADGraph α) :
    AReal α × ADGraph α :=
  let r := NewAReal val g
  (r.1, AddEdge1 r.1 x w soW r.2)

/-- The shape shared by every binary recording operator:
`ret = NewAReal(val); AddEdge(ret, l, r, w1, w2, soW); return ret`. -/
def binShape (val : α) (l r : AReal α) (w1 w2 soW : α) (g : ADGraph α) :
    AReal α × ADGraph α :=
  let t := NewAReal val g
  (t.1, AddEdge2 t.1 l r w1 w2 soW t.2)

/-- `operator+(AReal, AReal)`. -/
def addAA (l r : AReal α) (g : ADGraph α) : AReal α × ADGraph α :=
  binShape (l.val + r.val) l r 1 1 0 g

/-- `operator+(AReal, Real)`. -/
def addAC (l : AReal α) (r : α) (g : ADGraph α) : AReal α × ADGraph α :=
  unaryShape (l.val + r) l 1 0 g

/-- `operator+(Real, AReal)` (defined in the source as `r + l`). -/
def addCA (l : α) (r : AReal α) (g : ADGraph α) : AReal α × ADGraph α :=
  addAC r l g

/-- `operator-(AReal, AReal)`. -/
def subAA (l r : AReal α) (g : ADGraph α) : AReal α × ADGraph α :=
  binShape (l.val - r.val) l r 1 (-1) 0 g

/-- `operator-(AReal, Real)`. -/
def subAC (l : AReal α) (r : α) (g : ADGraph α) : AReal α × ADGraph α :=
  unaryShape (l.val - r) l 1 0 g

/-- `operator-(Real, AReal)`. -/
def subCA (l : α) (r : AReal α) (g : ADGraph α) : AReal α × ADGraph α :=
  unaryShape (l - r.val) r (-1) 0 g

/-- `operator*(AReal, AReal)`. -/
def mulAA (l r : AReal α) (g : ADGraph α) : AReal α × ADGraph α :=
  binShape (l.val * r.val) l r r.val l.val 1 g

/-- `operator*(AReal, Real)`. -/
def mulAC (l : AReal α) (r : α) (g : ADGraph α) : AReal α × ADGraph α :=
  unaryShape (l.val * r) l r 0 g

/-- `operator*(Real, AReal)` (defined in the source as `r * l`). -/
def mulCA (l : α) (r : AReal α) (g : ADGraph α) : AReal α × ADGraph α :=
  mulAC r l g

/-- `Inv(AReal)`. -/
def InvA (x : AReal α) (g : ADGraph α) : AReal α × ADGraph α :=
  let invX := 1 / x.val
  let invXSq := invX * invX
  let invXCu := invXSq * invX
  unaryShape invX x (-invXSq) (2 * invXCu) g

/-- `Inv(Real)`. -/
def InvC (x : α) : α := 1 / x

/-- `operator/(AReal, AReal)`: `return l * Inv(r);`. -/
def divAA (l r : AReal α) (g : ADGraph α) : AReal α × ADGraph α :=
  let p := InvA r g
  mulAA l p.1 p.2

/-- `operator/(AReal, Real)`: `return l * Inv(r);` — here `Inv(r)` is the
plain-number overload, so this is a scalar multiplication. -/
def divAC (l : AReal α) (r : α) (g : ADGraph α) : AReal α × ADGraph α :=
  mulAC l (InvC r) g

/-- `operator/(Real, AReal)`: `return l * Inv(r);` — `Inv(r)` is an active
scalar, and `Real * AReal` is defined as `Inv(r) * l`. -/
def divCA (l : α) (r : AReal α) (g : ADGraph α) : AReal α × ADGraph α :=
  let p := InvA r g
  mulCA l p.1 p.2

/-- `sqrt(AReal)`, parameterized by the plain-number square root. -/
def sqrtOp (sqrtFn : α → α) (x : AReal α) (g : ADGraph α) :
    AReal α × ADGraph α :=
  let sqrtX := sqrtFn x.val
  let invSqrtX := 1 / sqrtX
  unaryShape sqrtX x ((1 / 2) * invSqrtX) (-(1 / 4) * invSqrtX / x.val) g

/-- `pow(AReal, Real)`, parameterized by the plain-number power. -/
def powOp (powFn : α → α → α) (x : AReal α) (a : α) (g : ADGraph α) :
    AReal α × ADGraph α :=
  unaryShape (powFn x.val a) x (a * powFn x.val (a - 1))
    (a * (a - 1) * powFn x.val (a - 2)) g

/-- `exp(AReal)`, parameterized by the plain-number exponential. -/
def expOp (expFn : α → α) (x : AReal α) (g : ADGraph α) :
    AReal α × ADGraph α :=
  let expX := expFn x.val
  unaryShape expX x expX expX g

/-- `log(AReal)`, parameterized by the plain-number logarithm. -/
def logOp (logFn : α → α) (x : AReal α) (g : ADGraph α) :
    AReal α × ADGraph α :=
  let logX := logFn x.val
  let invX := 1 / x.val
  unaryShape logX x invX (-(invX * invX)) g

/-- `sin(AReal)`. -/
def sinOp (sinFn cosFn : α → α) (x : AReal α) (g : ADGraph α) :
    AReal α × ADGraph α :=
  unaryShape (sinFn x.val) x (cosFn x.val) (-(sinFn x.val)) g

/-- `cos(AReal)`. -/
def cosOp (sinFn cosFn : α → α) (x : AReal α) (g : ADGraph α) :
    AReal α × ADGraph α :=
  unaryShape (cosFn x.val) x (-(sinFn x.val)) (-(cosFn x.val)) g

/-- `tan(AReal)`. -/
def tanOp (tanFn cosFn : α → α) (x : AReal α) (g : ADGraph α) :
    AReal α × ADGraph α :=
  let tanX := tanFn x.val
  let secX := 1 / cosFn x.val
  let sec2X := secX * secX
  unaryShape tanX x sec2X (2 * tanX * sec2X) g

/-- `asin(AReal)`. -/
def asinOp (asinFn sqrtFn : α → α) (x : AReal α) (g : ADGraph α) :
    AReal α × ADGraph α :=
  let tmp := 1 / (1 - x.val * x.val)
  let sqrtTmp := sqrtFn tmp
  unaryShape (asinFn x.val) x sqrtTmp (x.val * sqrtTmp * tmp) g

/-- `acos(AReal)`. -/
def acosOp (acosFn sqrtFn : α → α) (x : AReal α) (g : ADGraph α) :
    AReal α × ADGraph α :=
  let tmp := 1 / (1 - x.val * x.val)
  let negSqrtTmp := -(sqrtFn tmp)
  unaryShape (acosFn x.val) x negSqrtTmp (x.val * negSqrtTmp * tmp) g

/-- `SetAdjoint(v, adj)`. -/
def SetAdjoint (v : AReal α) (adj : α) (g : ADGraph α) : ADGraph α :=
  match nth g.vertices v.varId with
  | none => g
  | some vert => ⟨setNth g.vertices v.varId { vert with w := adj }, g.soEdges⟩

/-- `GetAdjoint(v)`: read the stored first-order adjoint. -/
def GetAdjoint1 (v : AReal α) (g : ADGraph α) : α :=
  ((nth g.vertices v.varId).map ADVertex.w).getD 0

/-- `GetAdjoint(i, j)`: read `soEdges.coeffRef(min, max)` — this is a
`coeffRef` call on a non-const matrix, so it inserts an explicit zero
entry when the canonical key is not stored. -/
def GetAdjoint2 (i j : AReal α) (g : ADGraph α) : α × ADGraph α :=
  let r := coeffRefRead g.soEdges (canon i.varId j.varId)
  (r.1, { g with soEdges := r.2 })

/-- `ADGraph::Clear()`: `vertices.clear(); soEdges.setZero();`. -/
def Clear (_g : ADGraph α) : ADGraph α := ⟨[], []⟩

/-- `PushEdge(foEdge, soEdge)` acting on the accumulator. -/
def PushEdgeM (foEdge soEdge : ADEdge α) (m : SoMat α) : SoMat α :=
  if foEdge.toV = soEdge.toV then
    soAdd foEdge.toV foEdge.toV (2 * foEdge.w * soEdge.w) m
  else
    soAdd foEdge.toV soEdge.toV (foEdge.w * soEdge.w) m

/-- One iteration of the inner loop of `PropagateAdjoint` over a stored
entry `(entry.1, vid)` of column `vid` (as `ADEdge soEdge(it.index(),
it.value())`). -/
def pushAt (vid : Nat) (e1 e2 : ADEdge α) (m : SoMat α) (entry : Nat × α) :
    SoMat α :=
  let soEdge : ADEdge α := ⟨entry.1, entry.2⟩
  if soEdge.toV ≠ vid then
    let m1 := PushEdgeM e1 soEdge m
    if e2.toV ≠ vid then PushEdgeM e2 soEdge m1 else m1
  else
    let m1 := soAdd e1.toV e1.toV (e1.w * e1.w * soEdge.w) m
    if e2.toV ≠ vid then
      let m2 := soAdd e2.toV e2.toV (e2.w * e2.w * soEdge.w) m1
      soAdd e1.toV e2.toV
        (if e1.toV = e2.toV then 2 * e1.w * e2.w * soEdge.w
         else e1.w * e2.w * soEdge.w) m2
    else m1

/-- `Eigen::SparseMatrix<Real>::InnerIterator it(m, vid)`: the stored
entries of column `vid` of the column-major matrix, as `(row, value)`
pairs, explicit zeros included. -/
def innerIter (m : SoMat α) (vid : Nat) : List (Nat × α) :=
  match m with
  | [] => []
  | e :: rest =>
    if e.1.2 = vid then (e.1.1, e.2) :: innerIter rest vid
    else innerIter rest vid

/-- The body of the `for` loop of `PropagateAdjoint` for one vertex id.
`none` models an out-of-bounds `std::vector` access (C++ UB). -/
def stepVertex (g : ADGraph α) (vid : Nat) : Option (ADGraph α) :=
  match nth g.vertices vid with
  | none => none
  | some vertex =>
    let e1 := vertex.e1
    let e2 := vertex.e2
    if e1.toV = vid then some g
    else
      let m1 := (innerIter g.soEdges vid).foldl (pushAt vid e1 e2) g.soEdges
      let a := vertex.w
      if a = 0 then some { g with soEdges := m1 }
      else
        let m2 :=
          if vertex.soW ≠ 0 then
            if e2.toV = vid then soAdd e1.toV e1.toV (a * vertex.soW) m1
            else
              soAdd e1.toV e2.toV
                (if e1.toV = e2.toV then 2 * a * vertex.soW else a * vertex.soW)
                m1
          else m1
        let vs1 := setNth g.vertices vid { vertex with w := 0 }
        match nth vs1 e1.toV with
        | none => none
        | some p1 =>
          let vs2 := setNth vs1 e1.toV { p1 with w := p1.w + a * e1.w }
          if e2.toV ≠ vid then
            match nth vs2 e2.toV with
            | none => none
            | some p2 =>
              some ⟨setNth vs2 e2.toV { p2 with w := p2.w + a * e2.w }, m2⟩
          else some ⟨vs2, m2⟩

/-- The backward sweep: process vertex ids `n, n-1, ..., 1` (the loop
condition is `vid > 0`, so vertex 0 is never processed). -/
def sweep (g : ADGraph α) : Nat → Option (ADGraph α)
  | 0 => some g
  | vid + 1 => (stepVertex g (vid + 1)).bind (fun g1 => sweep g1 vid)

/-- `2^32`, the number of values of `VertexId` (`unsigned int`). -/
def U32 : Nat := 4294967296

/-- `PropagateAdjoint()`.  `soEdges.resize(n, n)` discards every stored
entry of the sparse matrix, and the loop starts at
`VertexId vid = vertices.size() - 1`, which for an empty tape wraps
around to `2^32 - 1`. -/
def PropagateAdjoint (g : ADGraph α) : Option (ADGraph α) :=
  sweep { g with soEdges := [] } ((g.vertices.length + U32 - 1) % U32)

/-- The edge-shape invariant of one vertex record at index `i`: existing
first-order edges point to strictly smaller ids (the sentinel is
`toV = i`), and `e2` can only exist when `e1` does. -/
def EdgeOK (i : Nat) (v : ADVertex α) : Prop :=
  (v.e1.toV ≠ i → v.e1.toV < i) ∧ (v.e2.toV ≠ i → v.e2.toV < i) ∧
  (v.e2.toV ≠ i → v.e1.toV ≠ i)

/-- Every first-order edge target of every vertex is a valid index into the
vertex sequence (what the adjoint updates of `PropagateAdjoint` need in
order not to index out of bounds). -/
def EdgesBounded (g : ADGraph α) : Prop :=
  ∀ v ∈ g.vertices, v.e1.toV < g.vertices.length ∧
    v.e2.toV < g.vertices.length

/-- Every stored entry of the accumulator sits at an upper-triangular
position. -/
def UpperTri (m : SoMat α) : Prop := ∀ e ∈ m, e.1.1 ≤ e.1.2

/-- The tapes reachable by recording: start from a fresh graph and apply
leaf creations and recorded operations whose operands are active scalars
already on the tape.  Every recording operator of the source is
`NewAReal` followed by a unary or binary `AddEdge` on the fresh vertex,
i.e. an instance of `unaryShape` or `binShape`. -/
inductive Trace : ADGraph α → Prop where
  | empty : Trace ⟨[], []⟩
  | leaf (v : α) {g : ADGraph α} : Trace g → Trace (NewAReal v g).2
  | unary (val w soW : α) (x : AReal α) {g : ADGraph α} : Trace g →
      x.varId < g.vertices.length → Trace (unaryShape val x w soW g).2
  | binary (val w1 w2 soW : α) (l r : AReal α) {g : ADGraph α} : Trace g →
      l.varId < g.vertices.length → r.varId < g.vertices.length →
      Trace (binShape val l r w1 w2 soW g).2

/-- Modelled from the spec: "Division is defined as `x / y ≡ x * Inv(y)`
(two tape entries)" — record the `Inv(y)` vertex, then multiply by it. -/
def divSpec (l r : AReal α) (g : ADGraph α) : AReal α × ADGraph α :=
  let p := InvA r g
  mulAA l p.1 p.2

/-- Concrete scenario: the single leaf `x = 5` on a fresh tape. -/
def gX5 : AReal ℚ × ADGraph ℚ := NewAReal 5 ⟨[], []⟩

/-- Concrete scenario: `f = x * x` at `x = 5` (the same active scalar as
both operands). -/
def gF25 : AReal ℚ × ADGraph ℚ := mulAA gX5.1 gX5.1 gX5.2

/-- Concrete scenario: the `f = x * x` tape with adjoint 1 seeded on `f`'s
vertex. -/
def gSeeded : ADGraph ℚ := SetAdjoint gF25.1 1 gF25.2

/-- Concrete scenario for the sweep's column iteration: leaf `x = 1`. -/
def c2x : AReal ℚ × ADGraph ℚ := NewAReal 1 ⟨[], []⟩

/-- Leaf `y = 2` (vertex 1). -/
def c2y : AReal ℚ × ADGraph ℚ := NewAReal 2 c2x.2

/-- Vertex 2: `x + y`. -/
def c2s : AReal ℚ × ADGraph ℚ := addAA c2x.1 c2y.1 c2y.2

/-- Vertex 3: `x * y`. -/
def c2p : AReal ℚ × ADGraph ℚ := mulAA c2x.1 c2y.1 c2s.2

/-- Vertex 4: `(x + y) * (x * y)`, the output. -/
def c2f : AReal ℚ × ADGraph ℚ := mulAA c2s.1 c2p.1 c2p.2

/-- The five-vertex tape with adjoint 1 seeded on the output vertex 4. -/
def c2seed : ADGraph ℚ := SetAdjoint c2f.1 1 c2f.2

/-- The sweep state of `PropagateAdjoint c2seed` after the steps for
vertices 4 and 3, i.e. the state on which the per-vertex step for vertex 2
runs. -/
def c2mid : ADGraph ℚ :=
  (((stepVertex { c2seed with soEdges := [] } 4).bind
      (fun g => stepVertex g 3)).getD ⟨[], []⟩)

/-- A two-vertex tape whose non-leaf vertex 1 has zero adjoint, edges
`e1 = (0, 3)`, `e2 = (0, 4)`, local curvature 7, and one off-diagonal
second-order entry `(0, 1) = 5`. -/
def g7 : ADGraph ℚ :=
  ⟨[⟨⟨0, 0⟩, ⟨0, 0⟩, 0, 0⟩, ⟨⟨0, 3⟩, ⟨0, 4⟩, 0, 7⟩], [((0, 1), 5)]⟩

/-- A two-vertex tape whose non-leaf vertex 1 has zero adjoint and whose
accumulator holds exactly the diagonal entry `(1, 1) = 5`. -/
def g1d : ADGraph ℚ :=
  ⟨[⟨⟨0, 0⟩, ⟨0, 0⟩, 0, 0⟩, ⟨⟨0, 3⟩, ⟨0, 4⟩, 0, 7⟩], [((1, 1), 5)]⟩

section ListLemmas

variable {β : Type}

/-- An in-bounds `nth` read yields an element of the list. -/
theorem nth_mem {l : List β} {i : Nat} {x : β} (h : nth l i = some x) :
    x ∈ l := by
  induction l generalizing i with
  | nil => simp [nth] at h
  | cons a t ih =>
    cases i with
    | zero =>
      simp [nth] at h
      simp [h]
    | succ n =>
      simp only [nth] at h
      exact List.mem_cons_of_mem _ (ih h)

/-- An in-bounds index yields a `some` read. -/
theorem nth_lt {l : List β} {i : Nat} (h : i < l.length) :
    ∃ x, nth l i = some x := by
  induction l generalizing i with
  | nil => simp at h
  | cons a t ih =>
    cases i with
    | zero => exact ⟨a, rfl⟩
    | succ n => exact ih (by simpa using h)

/-- `setNth` preserves length. -/
theorem length_setNth (l : List β) (i : Nat) (b : β) :
    (setNth l i b).length = l.length := by
  induction l generalizing i with
  | nil => rfl
  | cons a t ih =>
    cases i with
    | zero => rfl
    | succ n => simpa [setNth] using ih n

/-- Reading back the written position. -/
theorem nth_setNth_self {l : List β} {i : Nat} (b : β) (h : i < l.length) :
    nth (setNth l i b) i = some b := by
  induction l generalizing i with
  | nil => simp at h
  | cons a t ih =>
    cases i with
    | zero => rfl
    | succ n => exact ih (by simpa using h)

/-- Reading any other position is unaffected by `setNth`. -/
theorem nth_setNth_ne (l : List β) {i j : Nat} (b : β) (h : i ≠ j) :
    nth (setNth l i b) j = nth l j := by
  induction l generalizing i j with
  | nil => rfl
  | cons a t ih =>
    cases i with
    | zero =>
      cases j with
      | zero => exact absurd rfl h
      | succ m => rfl
    | succ n =>
      cases j with
      | zero => rfl
      | succ m => exact ih (fun e => h (by simp [e]))

/-- Every element after a `setNth` is the written value or an original
element. -/
theorem setNth_sub {l : List β} {i : Nat} {b : β} :
    ∀ x ∈ setNth l i b, x = b ∨ x ∈ l := by
  induction l generalizing i with
  | nil => simp [setNth]
  | cons a t ih =>
    cases i with
    | zero =>
      intro x hx
      rcases List.mem_cons.1 hx with h | h
      · exact Or.inl h
      · exact Or.inr (List.mem_cons_of_mem _ h)
    | succ n =>
      intro x hx
      rcases List.mem_cons.1 hx with h | h
      · exact Or.inr (by simp [h])
      · rcases ih x h with h1 | h1
        · exact Or.inl h1
        · exact Or.inr (List.mem_cons_of_mem _ h1)

/-- Reading below the length of the left part of an append. -/
theorem nth_append_lt {l1 l2 : List β} {i : Nat} (h : i < l1.length) :
    nth (l1 ++ l2) i = nth l1 i := by
  induction l1 generalizing i with
  | nil => simp at h
  | cons a t ih =>
    cases i with
    | zero => rfl
    | succ n => exact ih (by simpa using h)

/-- Reading the appended element. -/
theorem nth_append_len (l : List β) (x : β) :
    nth (l ++ [x]) l.length = some x := by
  induction l with
  | nil => rfl
  | cons a t ih => simpa [nth] using ih

/-- Writing the appended element. -/
theorem setNth_append_len (l : List β) (x b : β) :
    setNth (l ++ [x]) l.length b = l ++ [b] := by
  induction l with
  | nil => rfl
  | cons a t ih => simp [setNth, ih]

/-- Case analysis of a read against an append of one element. -/
theorem nth_append_single_cases {l : List β} {y v : β} {i : Nat}
    (h : nth (l ++ [y]) i = some v) :
    nth l i = some v ∨ (i = l.length ∧ v = y) := by
  induction l generalizing i with
  | nil =>
    cases i with
    | zero =>
      simp [nth] at h
      exact Or.inr ⟨rfl, h.symm⟩
    | succ n => simp [nth] at h
  | cons a t ih =>
    cases i with
    | zero => exact Or.inl h
    | succ n =>
      simp only [List.cons_append, nth] at h ⊢
      rcases ih h with h1 | h1
      · exact Or.inl h1
      · exact Or.inr ⟨by simp [h1.1], h1.2⟩

end ListLemmas

/-- The tape produced by a unary recording operator: the old vertices, plus
one fresh vertex whose `e1` targets the operand, whose `e2` is the
self-sentinel, with zero adjoint and the local curvature. -/
theorem unaryShape_snd (val w soW : α) (x : AReal α) (g : ADGraph α) :
    (unaryShape val x w soW g).2 =
      ⟨g.vertices ++ [⟨⟨x.varId, w⟩, ⟨g.vertices.length, 0⟩, 0, soW⟩],
       g.soEdges⟩ := by
  simp [unaryShape, NewAReal, AddEdge1, nth_append_len, setNth_append_len]

/-- The active scalar produced by a unary recording operator. -/
theorem unaryShape_fst (val w soW : α) (x : AReal α) (g : ADGraph α) :
    (unaryShape val x w soW g).1 = ⟨val, g.vertices.length⟩ := rfl

/-- The tape produced by a binary recording operator: the old vertices,
plus one fresh vertex with both edges set and the local curvature. -/
theorem binShape_snd (val w1 w2 soW : α) (l r : AReal α) (g : ADGraph α) :
    (binShape val l r w1 w2 soW g).2 =
      ⟨g.vertices ++ [⟨⟨l.varId, w1⟩, ⟨r.varId, w2⟩, 0, soW⟩], g.soEdges⟩ := by
  simp [binShape, NewAReal, AddEdge2, nth_append_len, setNth_append_len]

/-- The active scalar produced by a binary recording operator. -/
theorem binShape_fst (val w1 w2 soW : α) (l r : AReal α) (g : ADGraph α) :
    (binShape val l r w1 w2 soW g).1 = ⟨val, g.vertices.length⟩ := rfl

/-- A unary recording operator appends exactly one vertex. -/
theorem unaryShape_len (val w soW : α) (x : AReal α) (g : ADGraph α) :
    (unaryShape val x w soW g).2.vertices.length = g.vertices.length + 1 := by
  simp [unaryShape_snd]

/-- A binary recording operator appends exactly one vertex. -/
theorem binShape_len (val w1 w2 soW : α) (l r : AReal α) (g : ADGraph α) :
    (binShape val l r w1 w2 soW g).2.vertices.length =
      g.vertices.length + 1 := by
  simp [binShape_snd]

/-- C3: on a fresh tape with one leaf `x = 5` and `f` built as `x * x`
(the same active scalar as both operands), after seeding adjoint 1 on
`f`'s vertex and propagating, `f.val = 25`, the stored adjoint of `x` is
`10`, and the second-order accumulator entry at `(x, x)` is `2` (the
`e1.to == e2.to` doubling rule of the creation step). -/
theorem c3_square_at_five :
    gF25.1.val = 25 ∧
    (PropagateAdjoint gSeeded).map
      (fun g => (GetAdjoint1 gX5.1 g, (GetAdjoint2 gX5.1 gX5.1 g).1)) =
      some (10, 2) := by
  norm_num [gX5, gF25, gSeeded, PropagateAdjoint, sweep, stepVertex, nth,
    setNth, innerIter, pushAt, PushEdgeM, soAdd, coeffAdd, coeffRefRead,
    canon, NewAReal, AddEdge1, AddEdge2, unaryShape, binShape, mulAA,
    SetAdjoint, GetAdjoint1, GetAdjoint2, U32, Prod.mk.injEq,
    -Prod.mk_one_one, -Prod.mk_zero_zero]

/-- C5: on a fresh tape with leaves `x = 1`, `y = 1` and
`f = log(x*x + y*y)`, after seeding adjoint 1 on `f`'s vertex and
propagating, `f.val = log 2`, the stored adjoints of `x` and `y` are both
`1`, the accumulator entries at `(x, x)` and `(y, y)` are `0`, and the
entry at `(x, y)` is `-1`. -/
theorem c5_log_sum_of_squares :
    let g0 : ADGraph ℝ := ⟨[], []⟩
    let x := NewAReal (1 : ℝ) g0
    let y := NewAReal (1 : ℝ) x.2
    let xx := mulAA x.1 x.1 y.2
    let yy := mulAA y.1 y.1 xx.2
    let s := addAA xx.1 yy.1 yy.2
    let f := logOp Real.log s.1 s.2
    let sd := SetAdjoint f.1 1 f.2
    f.1.val = Real.log 2 ∧
    (PropagateAdjoint sd).map (fun g =>
        (GetAdjoint1 x.1 g, GetAdjoint1 y.1 g, (GetAdjoint2 x.1 x.1 g).1,
         (GetAdjoint2 y.1 y.1 g).1, (GetAdjoint2 x.1 y.1 g).1)) =
      some (1, 1, 0, 0, -1) := by
  norm_num [PropagateAdjoint, sweep, stepVertex, nth, setNth, innerIter,
    pushAt, PushEdgeM, soAdd, coeffAdd, coeffRefRead, canon, NewAReal,
    AddEdge1, AddEdge2, unaryShape, binShape, mulAA, addAA, logOp,
    SetAdjoint, GetAdjoint1, GetAdjoint2, U32, Prod.mk.injEq,
    -Prod.mk_one_one, -Prod.mk_zero_zero]

/-- C4 (amended): division by an active scalar — both `x / y` and `c / y`
— is recorded as `x * Inv(y)` and appends exactly two tape entries (the
`Inv(y)` vertex and the product vertex), identically to the explicit
composition; division of an active scalar by a plain number, `x / c`,
multiplies by the scalar `1 / c` and appends exactly one tape entry (no
`Inv` vertex is recorded). -/
theorem c4_division_refines_mul_inv (l r : AReal α) (c : α) (g : ADGraph α) :
    divAA l r g = divSpec l r g ∧
    (divAA l r g).2.vertices.length = g.vertices.length + 2 ∧
    divCA c r g = mulCA c (InvA r g).1 (InvA r g).2 ∧
    (divCA c r g).2.vertices.length = g.vertices.length + 2 ∧
    divAC l c g = mulAC l (1 / c) g ∧
    (divAC l c g).2.vertices.length = g.vertices.length + 1 := by
  refine ⟨rfl, ?_, rfl, ?_, rfl, ?_⟩
  · show (mulAA l (InvA r g).1 (InvA r g).2).2.vertices.length = _
    simp only [mulAA, InvA, binShape_len, unaryShape_len]
  · show (mulAC (InvA r g).1 c (InvA r g).2).2.vertices.length = _
    simp only [mulAC, InvA, unaryShape_len]
  · simp only [divAC, mulAC, unaryShape_len]

/-- C4 counterexample: dividing the active scalar `x = 3` (a one-vertex
tape) by the plain number `2` appends exactly one tape entry — the claim
as stated predicts two entries (an `Inv` vertex plus a product vertex)
for every division with at least one active operand. -/
theorem c4_division_by_constant_cex :
    (divAC (NewAReal (3 : ℚ) ⟨[], []⟩).1 2
        (NewAReal (3 : ℚ) ⟨[], []⟩).2).2.vertices.length = 2 ∧
    (NewAReal (3 : ℚ) ⟨[], []⟩).2.vertices.length + 2 = 3 := by
  constructor
  · rw [divAC, mulAC, unaryShape_len]
    norm_num [NewAReal]
  · norm_num [NewAReal]

/-- C7: when the sweep visits a non-leaf vertex whose adjoint is zero, the
creation step and the first-order adjoint update are skipped entirely:
the vertex sequence (the parents' adjoints and the vertex's own) is
returned unchanged, and the accumulator receives exactly the pushes of
the existing second-order entries adjacent to the vertex. -/
theorem c7_zero_adjoint_skips_creation (g : ADGraph α) (vid : Nat)
    (vertex : ADVertex α) (hv : nth g.vertices vid = some vertex)
    (hleaf : vertex.e1.toV ≠ vid) (hw : vertex.w = 0) :
    stepVertex g vid =
      some { g with soEdges :=
        ((innerIter g.soEdges vid).foldl (pushAt vid vertex.e1 vertex.e2)
          g.soEdges) } := by
  simp [stepVertex, hv, hleaf, hw]

/-- C7 witness: the concrete two-vertex tape `g7` (vertex 1 non-leaf with
zero adjoint, curvature 7, one off-diagonal entry `(0,1) = 5`)
instantiates the skip theorem. -/
theorem c7_zero_adjoint_skips_creation_witness :
    stepVertex g7 1 =
      some { g7 with soEdges :=
        ((innerIter g7.soEdges 1).foldl (pushAt 1 ⟨0, 3⟩ ⟨0, 4⟩)
          g7.soEdges) } :=
  c7_zero_adjoint_skips_creation g7 1 ⟨⟨0, 3⟩, ⟨0, 4⟩, 0, 7⟩ rfl
    (by decide) rfl

/-- C1 (amended): second-order weights pre-populated in the accumulator
before calling `PropagateAdjoint` are not preserved at entry to the
sweep: the `soEdges.resize(n, n)` call at the top of `PropagateAdjoint`
discards every stored entry, so the result of propagation is independent
of the accumulator state at call time.  A diagonal entry `(v, v)` that is
in the accumulator at the moment the sweep visits the non-leaf vertex `v`
is pushed through `v`'s first-order edges (stated for a vertex with zero
adjoint, so that the conclusion exhibits exactly the diagonal push). -/
theorem c1_preseed_cleared_diagonal_push :
    (∀ (g : ADGraph α) (s : SoMat α),
       PropagateAdjoint { g with soEdges := s } = PropagateAdjoint g) ∧
    (∀ (g : ADGraph α) (vid : Nat) (vertex : ADVertex α) (s : α),
       nth g.vertices vid = some vertex → vertex.e1.toV ≠ vid →
       vertex.w = 0 → innerIter g.soEdges vid = [(vid, s)] →
       stepVertex g vid = some { g with soEdges :=
         (if vertex.e2.toV ≠ vid then
           soAdd vertex.e1.toV vertex.e2.toV
             (if vertex.e1.toV = vertex.e2.toV then
                2 * vertex.e1.w * vertex.e2.w * s
              else vertex.e1.w * vertex.e2.w * s)
             (soAdd vertex.e2.toV vertex.e2.toV
                (vertex.e2.w * vertex.e2.w * s)
                (soAdd vertex.e1.toV vertex.e1.toV
                   (vertex.e1.w * vertex.e1.w * s) g.soEdges))
         else
           soAdd vertex.e1.toV vertex.e1.toV
             (vertex.e1.w * vertex.e1.w * s) g.soEdges) }) := by
  constructor
  · intro g s
    rfl
  · intro g vid vertex s hv hleaf hw hcol
    simp [stepVertex, hv, hleaf, hw, hcol, pushAt]

/-- C1 counterexample: on the `f = x * x` tape at `x = 5`, pre-seeding the
diagonal entry `(1, 1) = 7` through `AddSoEdge` before propagation is
stored (first conjunct) but has no effect on the propagation result
(second conjunct): the final entry at `(0, 0)` is `2`, exactly the value
of the unseeded run, although a push of the seeded weight through vertex
1's edges of weight 5 would have contributed `4 * 25 * 7 = 700` there. -/
theorem c1_preseed_ignored_cex :
    soCoeff (AddSoEdge 1 1 7 gSeeded).soEdges (1, 1) = 7 ∧
    PropagateAdjoint (AddSoEdge 1 1 7 gSeeded) = PropagateAdjoint gSeeded ∧
    (PropagateAdjoint (AddSoEdge 1 1 7 gSeeded)).map
      (fun g => soCoeff g.soEdges (0, 0)) = some 2 := by
  refine ⟨?_, rfl, ?_⟩
  · norm_num [AddSoEdge, soAdd, coeffAdd, canon, gSeeded, gF25, gX5,
      SetAdjoint, NewAReal, AddEdge2, binShape, mulAA, unaryShape, nth,
      setNth, soCoeff]
  · norm_num [AddSoEdge, gX5, gF25, gSeeded, PropagateAdjoint, sweep,
      stepVertex, nth, setNth, innerIter, pushAt, PushEdgeM, soAdd,
      coeffAdd, canon, NewAReal, AddEdge1, AddEdge2, unaryShape, binShape,
      mulAA, SetAdjoint, U32, soCoeff, Prod.mk.injEq, -Prod.mk_one_one,
      -Prod.mk_zero_zero]

/-- C1 witness: the clearing conjunct instantiated on the seeded `x * x`
tape, and the diagonal-push conjunct instantiated on the concrete tape
`g1d` whose accumulator holds exactly the diagonal entry `(1, 1) = 5`. -/
theorem c1_preseed_cleared_diagonal_push_witness :
    PropagateAdjoint { gSeeded with soEdges := [((1, 1), (7 : ℚ))] } =
      PropagateAdjoint gSeeded ∧
    stepVertex g1d 1 = some { g1d with soEdges :=
      (if (0 : Nat) ≠ 1 then
        soAdd 0 0 (if (0 : Nat) = 0 then 2 * 3 * 4 * (5 : ℚ)
          else 3 * 4 * 5)
          (soAdd 0 0 (4 * 4 * 5) (soAdd 0 0 (3 * 3 * 5) g1d.soEdges))
      else soAdd 0 0 (3 * 3 * 5) g1d.soEdges) } :=
  ⟨c1_preseed_cleared_diagonal_push.1 gSeeded [((1, 1), (7 : ℚ))],
   c1_preseed_cleared_diagonal_push.2 g1d 1 ⟨⟨0, 3⟩, ⟨0, 4⟩, 0, 7⟩ 5 rfl
     (by decide) rfl rfl⟩

/-- C2 (amended): the inner iteration of the per-vertex step yields
exactly the stored entries of *column* `v` of the upper-triangular
accumulator: every non-zero stored entry `(i, v)` (with any row `i`,
hence `i ≤ v` for canonically stored entries) is yielded, and everything
yielded is a stored entry of column `v` — so stored entries `(v, j)` with
`j > v` are not visited at `v`'s step (they are consumed when vertex `j`
is processed, earlier in the sweep). -/
theorem c2_iteration_is_column (m : SoMat α) (v : Nat) :
    (∀ i, soCoeff m (i, v) ≠ 0 → (i, soCoeff m (i, v)) ∈ innerIter m v) ∧
    (∀ p ∈ innerIter m v, ((p.1, v), p.2) ∈ m) := by
  constructor
  · intro i
    induction m with
    | nil => intro hne; simp [soCoeff] at hne
    | cons e rest ih =>
      intro hne
      by_cases he : e.1 = (i, v)
      · simp [soCoeff, innerIter, he]
      · simp only [soCoeff, if_neg he] at hne ⊢
        by_cases hc : e.1.2 = v
        · simp only [innerIter, if_pos hc]
          exact List.mem_cons_of_mem _ (ih hne)
        · simp only [innerIter, if_neg hc]
          exact ih hne
  · intro p hp
    induction m with
    | nil => simp [innerIter] at hp
    | cons e rest ih =>
      by_cases hc : e.1.2 = v
      · simp only [innerIter, if_pos hc] at hp
        rcases List.mem_cons.1 hp with h | h
        · subst h
          have : ((e.1.1, v), e.2) = e := by
            rw [← hc]
          rw [this]
          exact List.mem_cons_self e rest
        · exact List.mem_cons_of_mem _ (ih h)
      · simp only [innerIter, if_neg hc] at hp
        exact List.mem_cons_of_mem _ (ih hp)

/-- C2 counterexample: in the sweep of `PropagateAdjoint` over the
five-vertex tape `c2seed` (`f = (x+y)*(x*y)` at `x = 1, y = 2`), the
state reached before the step for vertex 2 is `c2mid`; it stores the
non-zero entry `(2, 3) = 1` (row 2, created by the creation step of
vertex 4), vertex 2 is a non-leaf, yet the iteration at vertex 2 does not
yield that entry — refuting "every non-zero stored entry `(v, j)` with
`j ≥ v` is visited at `v`'s step". -/
theorem c2_row_entry_not_visited_cex :
    PropagateAdjoint c2seed = sweep c2mid 2 ∧
    soCoeff c2mid.soEdges (2, 3) = 1 ∧
    (nth c2mid.vertices 2).map (fun v => v.e1.toV) = some 0 ∧
    (3, (1 : ℚ)) ∉ innerIter c2mid.soEdges 2 := by
  refine ⟨?_, ?_, ?_, ?_⟩ <;>
    norm_num [c2x, c2y, c2s, c2p, c2f, c2seed, c2mid, PropagateAdjoint,
      sweep, stepVertex, nth, setNth, innerIter, pushAt, PushEdgeM, soAdd,
      coeffAdd, canon, NewAReal, AddEdge1, AddEdge2, unaryShape, binShape,
      addAA, mulAA, SetAdjoint, U32, soCoeff, Prod.mk.injEq,
      -Prod.mk_one_one, -Prod.mk_zero_zero]

/-- C2 witness: the column-iteration theorem instantiated on the one-entry
accumulator `[((0, 2), 5)]` at vertex 2: the non-zero entry of column 2
at row 0 is yielded by the iteration. -/
theorem c2_iteration_is_column_witness :
    soCoeff [(((0 : Nat), (2 : Nat)), (5 : ℚ))] (0, 2) ≠ 0 ∧
    ((0 : Nat), soCoeff [(((0 : Nat), (2 : Nat)), (5 : ℚ))] (0, 2)) ∈
      innerIter [(((0 : Nat), (2 : Nat)), (5 : ℚ))] 2 :=
  ⟨by norm_num [soCoeff],
   (c2_iteration_is_column [(((0 : Nat), (2 : Nat)), (5 : ℚ))] 2).1 0
     (by norm_num [soCoeff])⟩

/-- Every recorded tape satisfies the per-vertex edge-shape invariant. -/
theorem edgeOK_of_trace {g : ADGraph α} (h : Trace g) :
    ∀ i v, nth g.vertices i = some v → EdgeOK i v := by
  induction h with
  | empty =>
    intro i v hv
    simp [nth] at hv
  | leaf val htr ih =>
    intro i v hv
    simp only [NewAReal] at hv
    rcases nth_append_single_cases hv with h1 | ⟨hi, hveq⟩
    · exact ih i v h1
    · subst hi; subst hveq
      exact ⟨fun hne => absurd rfl hne, fun hne => absurd rfl hne,
        fun hne => absurd rfl hne⟩
  | unary val w soW x htr hx ih =>
    intro i v hv
    rw [unaryShape_snd] at hv
    rcases nth_append_single_cases hv with h1 | ⟨hi, hveq⟩
    · exact ih i v h1
    · subst hi; subst hveq
      exact ⟨fun _ => hx, fun hne => absurd rfl hne,
        fun hne => absurd rfl hne⟩
  | binary val w1 w2 soW l r htr hl hr ih =>
    intro i v hv
    rw [binShape_snd] at hv
    rcases nth_append_single_cases hv with h1 | ⟨hi, hveq⟩
    · exact ih i v h1
    · subst hi; subst hveq
      exact ⟨fun _ => hl, fun _ => hr, fun _ => Nat.ne_of_lt hl⟩

/-- An in-bounds read implies the index is in bounds. -/
theorem nth_some_lt {β : Type} {l : List β} {i : Nat} {x : β}
    (h : nth l i = some x) : i < l.length := by
  induction l generalizing i with
  | nil => simp [nth] at h
  | cons a t ih =>
    cases i with
    | zero => simp
    | succ n =>
      simp only [nth] at h
      simpa using ih h

/-- Every element of a list is read at some index. -/
theorem nth_of_mem {β : Type} {l : List β} {x : β} (h : x ∈ l) :
    ∃ i, nth l i = some x := by
  induction l with
  | nil => simp at h
  | cons a t ih =>
    rcases List.mem_cons.1 h with rfl | h1
    · exact ⟨0, rfl⟩
    · obtain ⟨i, hi⟩ := ih h1
      exact ⟨i + 1, hi⟩

/-- Every recorded tape has in-bounds edge targets: an existing edge
points below the vertex's own index, and the sentinel points at it, so
both are below the tape length. -/
theorem trace_edgesBounded {g : ADGraph α} (h : Trace g) :
    EdgesBounded g := by
  intro v hv
  obtain ⟨i, hi⟩ := nth_of_mem hv
  have hlt := nth_some_lt hi
  obtain ⟨h1, h2, _⟩ := edgeOK_of_trace h i v hi
  constructor
  · by_cases he : v.e1.toV = i
    · rw [he]; exact hlt
    · exact lt_trans (h1 he) hlt
  · by_cases he : v.e2.toV = i
    · rw [he]; exact hlt
    · exact lt_trans (h2 he) hlt

/-- C6: after any sequence of leaf creations and recorded operations,
every vertex `v` at index `i` satisfies: if `e1.to != i` then
`e1.to < i`; if `e2.to != i` then `e2.to < i`; and if `e2` exists then
`e1` exists. -/
theorem c6_edge_invariants {g : ADGraph α} (h : Trace g) :
    ∀ i v, nth g.vertices i = some v →
      (v.e1.toV ≠ i → v.e1.toV < i) ∧ (v.e2.toV ≠ i → v.e2.toV < i) ∧
      (v.e2.toV ≠ i → v.e1.toV ≠ i) :=
  edgeOK_of_trace h

/-- C6 witness: the invariant theorem instantiated on the recorded tape of
`f = x * x` at `x = 5`: vertex 1's first edge points to the strictly
smaller id 0. -/
theorem c6_edge_invariants_witness :
    (⟨⟨0, 5⟩, ⟨0, 5⟩, 0, 1⟩ : ADVertex ℚ).e1.toV < 1 :=
  (c6_edge_invariants
      (Trace.binary (gX5.1.val * gX5.1.val) gX5.1.val gX5.1.val 1 gX5.1
        gX5.1 (Trace.leaf 5 Trace.empty) (by decide) (by decide))
      1 ⟨⟨0, 5⟩, ⟨0, 5⟩, 0, 1⟩ rfl).1 (by decide)

/-- Overwriting one vertex record whose edges are bounded keeps all edge
targets bounded. -/
theorem bounded_setNth {l : List (ADVertex α)} {n i : Nat} {b : ADVertex α}
    (hl : ∀ v ∈ l, v.e1.toV < n ∧ v.e2.toV < n)
    (hb : b.e1.toV < n ∧ b.e2.toV < n) :
    ∀ v ∈ setNth l i b, v.e1.toV < n ∧ v.e2.toV < n := by
  intro v hv
  rcases setNth_sub v hv with h1 | h1
  · subst h1; exact hb
  · exact hl v h1

/-- A successful per-vertex step does not change the number of vertices. -/
theorem stepVertex_length {g g1 : ADGraph α} {vid : Nat}
    (h : stepVertex g vid = some g1) :
    g1.vertices.length = g.vertices.length := by
  simp only [stepVertex] at h
  split at h
  · simp at h
  next vertex heq =>
    split at h
    · rw [Option.some.injEq] at h; subst h; rfl
    · split at h
      · rw [Option.some.injEq] at h; subst h; rfl
      · split at h
        · simp at h
        next p1 hp1 =>
          split at h
          · split at h
            · simp at h
            next p2 hp2 =>
              rw [Option.some.injEq] at h; subst h
              simp [length_setNth]
          · rw [Option.some.injEq] at h; subst h
            simp [length_setNth]

/-- A successful per-vertex step keeps all edge targets bounded (it only
rewrites adjoint fields, never edges). -/
theorem stepVertex_bounded {g g1 : ADGraph α} {vid : Nat}
    (h : stepVertex g vid = some g1) (hb : EdgesBounded g) :
    EdgesBounded g1 := by
  have hlen := stepVertex_length h
  simp only [stepVertex] at h
  split at h
  · simp at h
  next vertex heq =>
    have hv := hb vertex (nth_mem heq)
    split at h
    · rw [Option.some.injEq] at h; subst h; exact hb
    · split at h
      · rw [Option.some.injEq] at h; subst h; exact hb
      · split at h
        · simp at h
        next p1 hp1 =>
          have hp1b : p1.e1.toV < g.vertices.length ∧
              p1.e2.toV < g.vertices.length := by
            rcases setNth_sub p1 (nth_mem hp1) with h1 | h1
            · rw [h1]; exact hv
            · exact hb p1 h1
          split at h
          · split at h
            · simp at h
            next p2 hp2 =>
              have hp2b : p2.e1.toV < g.vertices.length ∧
                  p2.e2.toV < g.vertices.length := by
                rcases setNth_sub p2 (nth_mem hp2) with h1 | h1
                · rw [h1]
                  rcases setNth_sub p1 (nth_mem hp1) with h2 | h2
                  · rw [h2]; exact hv
                  · exact hb p1 h2
                · rcases setNth_sub p2 h1 with h2 | h2
                  · rw [h2]; exact hv
                  · exact hb p2 h2
              rw [Option.some.injEq] at h; subst h
              have hbv : ({ vertex with w := 0 } : ADVertex α).e1.toV <
                  g.vertices.length ∧
                  ({ vertex with w := 0 } : ADVertex α).e2.toV <
                  g.vertices.length := hv
              have hbp1 :
                  ({ p1 with w := p1.w + vertex.w * vertex.e1.w } :
                    ADVertex α).e1.toV < g.vertices.length ∧
                  ({ p1 with w := p1.w + vertex.w * vertex.e1.w } :
                    ADVertex α).e2.toV < g.vertices.length := hp1b
              have hbp2 :
                  ({ p2 with w := p2.w + vertex.w * vertex.e2.w } :
                    ADVertex α).e1.toV < g.vertices.length ∧
                  ({ p2 with w := p2.w + vertex.w * vertex.e2.w } :
                    ADVertex α).e2.toV < g.vertices.length := hp2b
              simp only [EdgesBounded, length_setNth]
              exact bounded_setNth (bounded_setNth (bounded_setNth hb hbv)
                hbp1) hbp2
          · rw [Option.some.injEq] at h; subst h
            have hbv : ({ vertex with w := 0 } : ADVertex α).e1.toV <
                g.vertices.length ∧
                ({ vertex with w := 0 } : ADVertex α).e2.toV <
                g.vertices.length := hv
            have hbp1 :
                ({ p1 with w := p1.w + vertex.w * vertex.e1.w } :
                  ADVertex α).e1.toV < g.vertices.length ∧
                ({ p1 with w := p1.w + vertex.w * vertex.e1.w } :
                  ADVertex α).e2.toV < g.vertices.length := hp1b
            simp only [EdgesBounded, length_setNth]
            exact bounded_setNth (bounded_setNth hb hbv) hbp1

/-- When the visited index is in bounds and all edge targets are bounded,
the per-vertex step performs no out-of-bounds access. -/
theorem stepVertex_isSome {g : ADGraph α} {vid : Nat}
    (hb : EdgesBounded g) (hv : vid < g.vertices.length) :
    (stepVertex g vid).isSome := by
  obtain ⟨vertex, hnth⟩ := nth_lt hv
  obtain ⟨hb1, hb2⟩ := hb vertex (nth_mem hnth)
  by_cases hleaf : vertex.e1.toV = vid
  · simp [stepVertex, hnth, hleaf]
  · by_cases hw : vertex.w = 0
    · simp [stepVertex, hnth, hleaf, hw]
    · obtain ⟨p1, hp1⟩ := nth_lt
        (show vertex.e1.toV <
            (setNth g.vertices vid { vertex with w := 0 }).length by
          rw [length_setNth]; exact hb1)
      by_cases he2 : vertex.e2.toV = vid
      · simp [stepVertex, hnth, hleaf, hw, he2, hp1]
      · obtain ⟨p2, hp2⟩ := nth_lt
          (show vertex.e2.toV <
              (setNth (setNth g.vertices vid { vertex with w := 0 })
                vertex.e1.toV
                { p1 with w := p1.w + vertex.w * vertex.e1.w }).length by
            rw [length_setNth, length_setNth]; exact hb2)
        simp [stepVertex, hnth, hleaf, hw, he2, hp1, hp2]

/-- The backward sweep from an in-bounds start index performs no
out-of-bounds access. -/
theorem sweep_isSome :
    ∀ (k : Nat) (g : ADGraph α), EdgesBounded g → k < g.vertices.length →
      (sweep g k).isSome := by
  intro k
  induction k with
  | zero => intro g _ _; simp [sweep]
  | succ n ih =>
    intro g hbd hk
    obtain ⟨g1, hg1⟩ := Option.isSome_iff_exists.1 (stepVertex_isSome hbd hk)
    have hlen := stepVertex_length hg1
    simp only [sweep, hg1, Option.bind_some]
    exact ih g1 (stepVertex_bounded hg1 hbd)
      (by rw [hlen]; exact Nat.lt_of_succ_lt hk)

/-- Sweeping an empty vertex sequence from any non-zero start index hits
an out-of-bounds access at once. -/
theorem sweep_nil (k : Nat) (so : SoMat α) (hk : k ≠ 0) :
    sweep (⟨[], so⟩ : ADGraph α) k = none := by
  cases k with
  | zero => exact absurd rfl hk
  | succ j => simp [sweep, stepVertex, nth]

/-- C9: `PropagateAdjoint` on a tape with zero vertices is not safe — the
unsigned start index `vertices.size() - 1` wraps to `2^32 - 1` and the
first vertex access is out of bounds (the embedded sweep returns `none`);
on a tape with at least one vertex (and in-bounds edge targets, as every
recorded tape has) the sweep is total. -/
theorem c9_empty_tape_underflow (g : ADGraph α) :
    (g.vertices = [] → PropagateAdjoint g = none) ∧
    (EdgesBounded g → g.vertices ≠ [] → (PropagateAdjoint g).isSome) := by
  constructor
  · intro h
    show sweep (⟨g.vertices, []⟩ : ADGraph α)
      ((g.vertices.length + U32 - 1) % U32) = none
    rw [h]
    exact sweep_nil _ _ (by norm_num [U32])
  · intro hbd hne
    have hlen : 0 < g.vertices.length := List.length_pos.2 hne
    have hstart : (g.vertices.length + U32 - 1) % U32 <
        g.vertices.length := by
      have h1 : g.vertices.length + U32 - 1 =
          U32 + (g.vertices.length - 1) := by omega
      rw [h1, Nat.add_mod_left]
      exact lt_of_le_of_lt (Nat.mod_le _ _) (Nat.sub_lt hlen one_pos)
    exact sweep_isSome _ (⟨g.vertices, []⟩ : ADGraph α) hbd hstart

/-- C9 witness: the empty tape propagates to `none`; the seeded one-leaf,
one-product tape of `f = x * x` (bounded edges, two vertices) propagates
successfully. -/
theorem c9_empty_tape_underflow_witness :
    PropagateAdjoint (⟨[], []⟩ : ADGraph ℚ) = none ∧
    (PropagateAdjoint gSeeded).isSome :=
  ⟨(c9_empty_tape_underflow (⟨[], []⟩ : ADGraph ℚ)).1 rfl,
   (c9_empty_tape_underflow gSeeded).2
     (by simp only [EdgesBounded]; decide) (by decide)⟩

/-- A `coeffRef +=` at an upper-triangular position preserves the
upper-triangular storage invariant. -/
theorem upperTri_coeffAdd {p : Nat × Nat} (hp : p.1 ≤ p.2) (w : α) :
    ∀ m : SoMat α, UpperTri m → UpperTri (coeffAdd m p w) := by
  intro m
  induction m with
  | nil =>
    intro _ e he
    simp only [coeffAdd] at he
    rcases List.mem_singleton.1 he with rfl
    exact hp
  | cons a t ih =>
    intro hm e he
    have hmt : UpperTri t := fun x hx => hm x (List.mem_cons_of_mem _ hx)
    by_cases hc : a.1 = p
    · simp only [coeffAdd, if_pos hc] at he
      rcases List.mem_cons.1 he with rfl | h
      · exact hp
      · exact hm e (List.mem_cons_of_mem _ h)
    · simp only [coeffAdd, if_neg hc] at he
      rcases List.mem_cons.1 he with rfl | h
      · exact hm _ (List.mem_cons_self _ _)
      · exact ih hmt e h

/-- Every `AddSoEdge` write lands at the canonical `(min, max)` position
and so preserves the invariant. -/
theorem upperTri_soAdd (i j : Nat) (w : α) {m : SoMat α}
    (hm : UpperTri m) : UpperTri (soAdd i j w m) :=
  upperTri_coeffAdd (by simp [canon]) w m hm

/-- `PushEdge` writes only through `AddSoEdge`. -/
theorem upperTri_PushEdgeM (f s : ADEdge α) {m : SoMat α}
    (hm : UpperTri m) : UpperTri (PushEdgeM f s m) := by
  unfold PushEdgeM
  split
  · exact upperTri_soAdd _ _ _ hm
  · exact upperTri_soAdd _ _ _ hm

/-- One inner-loop iteration writes only through `AddSoEdge`. -/
theorem upperTri_pushAt (vid : Nat) (e1 e2 : ADEdge α) {m : SoMat α}
    (hm : UpperTri m) (entry : Nat × α) :
    UpperTri (pushAt vid e1 e2 m entry) := by
  simp only [pushAt]
  split
  · split
    · exact upperTri_PushEdgeM _ _ (upperTri_PushEdgeM _ _ hm)
    · exact upperTri_PushEdgeM _ _ hm
  · split
    · exact upperTri_soAdd _ _ _ (upperTri_soAdd _ _ _
        (upperTri_soAdd _ _ _ hm))
    · exact upperTri_soAdd _ _ _ hm

/-- The whole inner loop preserves the invariant. -/
theorem upperTri_foldl (vid : Nat) (e1 e2 : ADEdge α) :
    ∀ (l : List (Nat × α)) {m : SoMat α}, UpperTri m →
      UpperTri (l.foldl (pushAt vid e1 e2) m) := by
  intro l
  induction l with
  | nil => intro m hm; exact hm
  | cons a t ih =>
    intro m hm
    simp only [List.foldl_cons]
    exact ih (upperTri_pushAt vid e1 e2 hm a)

/-- The per-vertex step preserves the invariant. -/
theorem upperTri_stepVertex {g g1 : ADGraph α} {vid : Nat}
    (h : stepVertex g vid = some g1) (hm : UpperTri g.soEdges) :
    UpperTri g1.soEdges := by
  simp only [stepVertex] at h
  split at h
  · simp at h
  next vertex heq =>
    have hm1 := upperTri_foldl vid vertex.e1 vertex.e2
      (innerIter g.soEdges vid) hm
    split at h
    · rw [Option.some.injEq] at h; subst h; exact hm
    · split at h
      · rw [Option.some.injEq] at h; subst h; exact hm1
      · split at h
        · simp at h
        next p1 hp1 =>
          split at h
          · split at h
            · simp at h
            next p2 hp2 =>
              rw [Option.some.injEq] at h; subst h
              repeat' split
              all_goals
                first
                  | exact hm1
                  | exact upperTri_soAdd _ _ _ hm1
          · rw [Option.some.injEq] at h; subst h
            repeat' split
            all_goals
              first
                | exact hm1
                | exact upperTri_soAdd _ _ _ hm1

/-- The sweep preserves the invariant. -/
theorem upperTri_sweep :
    ∀ (k : Nat) {g g1 : ADGraph α}, sweep g k = some g1 →
      UpperTri g.soEdges → UpperTri g1.soEdges := by
  intro k
  induction k with
  | zero =>
    intro g g1 h hm
    simp only [sweep, Option.some.injEq] at h
    subst h; exact hm
  | succ n ih =>
    intro g g1 h hm
    simp only [sweep] at h
    rcases Option.bind_eq_some.1 h with ⟨g2, hg2, hrest⟩
    exact ih hrest (upperTri_stepVertex hg2 hm)

/-- The `coeffRef` read of `GetAdjoint(i, j)` inserts (if anything) only
at its canonical position. -/
theorem upperTri_coeffRefRead {p : Nat × Nat} (hp : p.1 ≤ p.2) :
    ∀ m : SoMat α, UpperTri m → UpperTri (coeffRefRead m p).2 := by
  intro m
  induction m with
  | nil =>
    intro _ e he
    simp only [coeffRefRead] at he
    rcases List.mem_singleton.1 he with rfl
    exact hp
  | cons a t ih =>
    intro hm e he
    have hmt : UpperTri t := fun x hx => hm x (List.mem_cons_of_mem _ hx)
    by_cases hc : a.1 = p
    · simp only [coeffRefRead, if_pos hc] at he
      exact hm e he
    · simp only [coeffRefRead, if_neg hc] at he
      rcases List.mem_cons.1 he with rfl | h
      · exact hm _ (List.mem_cons_self _ _)
      · exact ih hmt e h

/-- Swapping the operands of `canon` gives the same position. -/
theorem canon_comm (i j : Nat) : canon i j = canon j i := by
  simp [canon, Nat.min_comm, Nat.max_comm]

/-- C8: every write canonicalizes to `(min, max)`, so the accumulator
stays upper-triangular through `AddSoEdge`, through a whole propagation
(which starts from the cleared accumulator), and through the inserting
read of `GetAdjoint(i, j)`; and the pairwise read is symmetric:
`GetAdjoint(x, y)` and `GetAdjoint(y, x)` return the same value and leave
the same state. -/
theorem c8_canonical_writes_symmetry :
    (∀ (i j : Nat) (w : α) (m : SoMat α), UpperTri m →
      UpperTri (soAdd i j w m)) ∧
    (∀ g g1 : ADGraph α, PropagateAdjoint g = some g1 →
      UpperTri g1.soEdges) ∧
    (∀ (x y : AReal α) (g : ADGraph α), UpperTri g.soEdges →
      UpperTri (GetAdjoint2 x y g).2.soEdges) ∧
    (∀ (x y : AReal α) (g : ADGraph α),
      GetAdjoint2 x y g = GetAdjoint2 y x g) := by
  refine ⟨fun i j w m hm => upperTri_soAdd i j w hm, ?_, ?_, ?_⟩
  · intro g g1 h
    exact upperTri_sweep _ h (fun e he => absurd he (List.not_mem_nil e))
  · intro x y g hm
    exact upperTri_coeffRefRead (by simp [canon]) g.soEdges hm
  · intro x y g
    rw [GetAdjoint2, GetAdjoint2, canon_comm]

/-- C8 witness: a canonicalized write on the empty accumulator, the
upper-triangular invariant of a propagated one-leaf tape, the inserting
read on that tape, and read symmetry, all at concrete inputs. -/
theorem c8_canonical_writes_symmetry_witness :
    UpperTri (soAdd 2 1 (5 : ℚ) []) ∧
    UpperTri ((⟨[⟨⟨0, 0⟩, ⟨0, 0⟩, 0, 0⟩], []⟩ : ADGraph ℚ)).soEdges ∧
    UpperTri (GetAdjoint2 (⟨5, 0⟩ : AReal ℚ) ⟨7, 1⟩
      ⟨[], [((0, 0), 3)]⟩).2.soEdges ∧
    GetAdjoint2 (⟨5, 0⟩ : AReal ℚ) ⟨7, 1⟩ ⟨[], [((0, 0), 3)]⟩ =
      GetAdjoint2 ⟨7, 1⟩ ⟨5, 0⟩ ⟨[], [((0, 0), 3)]⟩ :=
  ⟨c8_canonical_writes_symmetry.1 2 1 5 []
     (fun e he => absurd he (List.not_mem_nil e)),
   c8_canonical_writes_symmetry.2.1 ⟨[⟨⟨0, 0⟩, ⟨0, 0⟩, 0, 0⟩], []⟩
     ⟨[⟨⟨0, 0⟩, ⟨0, 0⟩, 0, 0⟩], []⟩
     (by norm_num [PropagateAdjoint, sweep, U32]),
   c8_canonical_writes_symmetry.2.2.1 ⟨5, 0⟩ ⟨7, 1⟩ ⟨[], [((0, 0), 3)]⟩
     (by simp only [UpperTri]; decide),
   c8_canonical_writes_symmetry.2.2.2 ⟨5, 0⟩ ⟨7, 1⟩ ⟨[], [((0, 0), 3)]⟩⟩

/-- The value returned by the `coeffRef` read is the stored coefficient
(zero when absent). -/
theorem coeffRefRead_fst (m : SoMat α) (p : Nat × Nat) :
    (coeffRefRead m p).1 = soCoeff m p := by
  induction m with
  | nil => rfl
  | cons a t ih =>
    by_cases hc : a.1 = p
    · simp only [coeffRefRead, soCoeff, if_pos hc]
    · simp only [coeffRefRead, soCoeff, if_neg hc]
      exact ih

/-- The `coeffRef` read changes no coefficient value. -/
theorem soCoeff_coeffRefRead (m : SoMat α) (p q : Nat × Nat) :
    soCoeff (coeffRefRead m p).2 q = soCoeff m q := by
  induction m with
  | nil =>
    simp only [coeffRefRead, soCoeff]
    split
    · rfl
    · rfl
  | cons a t ih =>
    by_cases hc : a.1 = p
    · simp only [coeffRefRead, if_pos hc]
    · simp only [coeffRefRead, if_neg hc, soCoeff]
      by_cases hq : a.1 = q
      · simp [hq]
      · simp [hq, ih]

/-- When the key is absent, the `coeffRef` read appends an explicit zero
entry at that key. -/
theorem coeffRefRead_absent {m : SoMat α} {p : Nat × Nat}
    (h : hasKey m p = false) : (coeffRefRead m p).2 = m ++ [(p, 0)] := by
  induction m with
  | nil => rfl
  | cons a t ih =>
    by_cases hc : a.1 = p
    · simp [hasKey, hc] at h
    · simp only [hasKey, if_neg hc] at h
      simp [coeffRefRead, hc, ih h]

/-- After the `coeffRef` read the key is always stored. -/
theorem hasKey_coeffRefRead (m : SoMat α) (p : Nat × Nat) :
    hasKey (coeffRefRead m p).2 p = true := by
  induction m with
  | nil => simp [coeffRefRead, hasKey]
  | cons a t ih =>
    by_cases hc : a.1 = p
    · simp [coeffRefRead, hasKey, hc]
    · simp [coeffRefRead, hasKey, hc, ih]

/-- C10: the pairwise read `GetAdjoint(i, j)` is not a pure read — when
the canonical key is absent it appends an explicit zero entry, changing
the stored-entry set — but it changes no coefficient value: every
coefficient read after it returns what it returned before, the canonical
key is stored afterwards, and the returned value is the stored
coefficient (zero when absent). -/
theorem c10_pair_read_inserts_zero (x y : AReal α) (g : ADGraph α) :
    (∀ q, soCoeff (GetAdjoint2 x y g).2.soEdges q = soCoeff g.soEdges q) ∧
    hasKey (GetAdjoint2 x y g).2.soEdges (canon x.varId y.varId) = true ∧
    (hasKey g.soEdges (canon x.varId y.varId) = false →
      (GetAdjoint2 x y g).2.soEdges =
        g.soEdges ++ [(canon x.varId y.varId, 0)] ∧
      (GetAdjoint2 x y g).2.soEdges ≠ g.soEdges) ∧
    (GetAdjoint2 x y g).1 = soCoeff g.soEdges (canon x.varId y.varId) := by
  refine ⟨fun q => soCoeff_coeffRefRead g.soEdges _ q,
    hasKey_coeffRefRead g.soEdges _,
    fun h => ⟨coeffRefRead_absent h, ?_⟩, coeffRefRead_fst g.soEdges _⟩
  intro he
  rw [show (GetAdjoint2 x y g).2.soEdges =
      (coeffRefRead g.soEdges (canon x.varId y.varId)).2 from rfl,
    coeffRefRead_absent h] at he
  have hlen := congrArg List.length he
  simp at hlen

/-- C10 witness: reading the absent pair `(0, 1)` on an accumulator that
stores only `(0, 0) = 3` appends an explicit zero entry at `(0, 1)` and
leaves the `(0, 0)` coefficient unchanged. -/
theorem c10_pair_read_inserts_zero_witness :
    hasKey ((⟨[], [((0, 0), 3)]⟩ : ADGraph ℚ)).soEdges (canon 0 1) =
      false ∧
    (GetAdjoint2 (⟨5, 0⟩ : AReal ℚ) ⟨7, 1⟩
      ⟨[], [((0, 0), 3)]⟩).2.soEdges =
      [((0, 0), 3)] ++ [(canon 0 1, 0)] ∧
    soCoeff (GetAdjoint2 (⟨5, 0⟩ : AReal ℚ) ⟨7, 1⟩
      ⟨[], [((0, 0), 3)]⟩).2.soEdges (0, 0) =
      soCoeff [((0, 0), 3)] (0, 0) :=
  ⟨by decide,
   ((c10_pair_read_inserts_zero (⟨5, 0⟩ : AReal ℚ) ⟨7, 1⟩
       ⟨[], [((0, 0), 3)]⟩).2.2.1 (by decide)).1,
   (c10_pair_read_inserts_zero (⟨5, 0⟩ : AReal ℚ) ⟨7, 1⟩
       ⟨[], [((0, 0), 3)]⟩).1 (0, 0)⟩

end had
